import Mathlib

/-!
Verification of `copy_files_to_agave.py`: a script that recursively copies a
local directory tree to a remote Agave storage server, mirroring the
directory structure.

Shallow embedding conventions:
* Remote and local paths are lists of path segments (`Path := List String`);
  `os.path.join p n` for a single child name `n` is `p ++ [n]`.
* A directory listing (the sequence returned by `os.listdir`, each name
  paired with what the `os.path.isdir` / `os.path.isfile` tests say about
  it) is the inductive `Forest`: `dir name children rest` is a child for
  which `os.path.isdir` is true, `file name rest` one for which
  `os.path.isfile` is true, and `other name rest` any child for which both
  are false (broken symlinks, sockets, devices, ...); `rest` is the rest of
  the listing, in `os.listdir` order.
* An `Entry` is what a single path names: a directory with its listing, a
  regular file, or anything else.
* The observable behaviour of `copy_from` is the sequence of adapter calls
  it issues (`Call.mkdir` for `make_directory`, `Call.upload` for
  `upload_file`), paired with a `Bool` that is `false` when an exception
  propagates out of the run.
-/

namespace CopyAgave

abbrev Path : Type := List String

/-- An adapter-level remote call issued by the tree copier: `mkdir path` for
`make_directory(path)` and `upload file_path dest_path filename` for
`upload_file(file_path, dest_path, filename)`. -/
inductive Call where
  | mkdir (path : Path)
  | upload (file_path : Path) (dest_path : Path) (filename : String)
  deriving DecidableEq, Repr

/-- A local directory listing: each child is a subdirectory (with its own
listing), a regular file, or anything else, in `os.listdir` order. -/
inductive Forest where
  | nil
  | dir (name : String) (children : Forest) (rest : Forest)
  | file (name : String) (rest : Forest)
  | other (name : String) (rest : Forest)
  deriving DecidableEq, Repr

/-- What a single local path names: a directory (for which `os.path.isdir`
is true, with its listing), a regular file (`os.path.isfile` true), or
anything else. -/
inductive Entry where
  | Dir (children : Forest)
  | File
  | Other
  deriving DecidableEq, Repr

/-- `os.listdir`: succeeds exactly on directories, returning the listing;
raises (modelled as `none`) on anything else. -/
def listdir : Entry → Option Forest
  | .Dir cs => some cs
  | _ => none

/-- The body of `copy_from`'s loop over `os.listdir(local_path)`, with the
recursive call into subdirectories inlined (a subdirectory child first gets
its `make_directory` call, then its own loop over its listing): a directory
child is recursed into, a regular-file child is uploaded with the *current*
remote path as destination, and any other child is skipped. -/
def walk (lp rp : Path) : Forest → List Call
  | .nil => []
  | .dir name cs rest =>
      Call.mkdir (rp ++ [name]) ::
        (walk (lp ++ [name]) (rp ++ [name]) cs ++ walk lp rp rest)
  | .file name rest =>
      Call.upload (lp ++ [name]) rp name :: walk lp rp rest
  | .other _ rest => walk lp rp rest

/-- `copy_from(local_path, agave, remote_path)`: issues
`make_directory(remote_path)` first, then lists the local directory and
processes each child.  When `local_path` is not a listable directory,
`os.listdir` raises after the `make_directory` call: the result is the
single `mkdir` call with the `false` (exception propagated) flag. -/
def copy_from (lp : Path) (e : Entry) (rp : Path) : List Call × Bool :=
  match listdir e with
  | some cs => (Call.mkdir rp :: walk lp rp cs, true)
  | none => ([Call.mkdir rp], false)

/-- The remote directory paths of a listing rooted at remote path `rp`, in
pre-order (each directory before its descendants, children in `os.listdir`
order). -/
def dirPaths (rp : Path) : Forest → List Path
  | .nil => []
  | .dir name cs rest =>
      (rp ++ [name]) :: (dirPaths (rp ++ [name]) cs ++ dirPaths rp rest)
  | .file _ rest => dirPaths rp rest
  | .other _ rest => dirPaths rp rest

/-- The regular files of a listing: for each, its local path, the remote
path of its *parent* directory, and its base name, in traversal order. -/
def filePaths (lp rp : Path) : Forest → List (Path × Path × String)
  | .nil => []
  | .dir name cs rest =>
      filePaths (lp ++ [name]) (rp ++ [name]) cs ++ filePaths lp rp rest
  | .file name rest => (lp ++ [name], rp, name) :: filePaths lp rp rest
  | .other _ rest => filePaths lp rp rest

/-- The `mkdir` calls of a trace, in order. -/
def mkdirPaths (l : List Call) : List Path :=
  l.filterMap fun c => match c with | .mkdir p => some p | _ => none

/-- The `upload` calls of a trace, in order, as
(file path, destination path, filename) triples. -/
def uploadTriples (l : List Call) : List (Path × Path × String) :=
  l.filterMap fun c => match c with
    | .upload fp dp fn => some (fp, dp, fn)
    | _ => none

/-- The child names of a listing, in `os.listdir` order. -/
def childNames : Forest → List String
  | .nil => []
  | .dir name _ rest => name :: childNames rest
  | .file name rest => name :: childNames rest
  | .other name rest => name :: childNames rest

/-- A well-formed directory listing: sibling names are distinct at every
level (as `os.listdir` guarantees). -/
def validF : Forest → Bool
  | .nil => true
  | .dir name cs rest =>
      decide (name ∉ childNames rest) && validF cs && validF rest
  | .file name rest => decide (name ∉ childNames rest) && validF rest
  | .other name rest => decide (name ∉ childNames rest) && validF rest

/-- The listing with every `other` child (neither directory nor regular
file) removed, recursively. -/
def pruneF : Forest → Forest
  | .nil => .nil
  | .dir name cs rest => .dir name (pruneF cs) (pruneF rest)
  | .file name rest => .file name (pruneF rest)
  | .other _ rest => pruneF rest

/-- Cuts a call sequence at its first failing call (as decided by the remote
oracle `fails`): the result is the issued prefix, ending with the failing
call when there is one, and a flag that is `false` exactly when a call
failed. -/
def cutAt (fails : Call → Bool) : List Call → List Call × Bool
  | [] => ([], true)
  | c :: cs =>
      if fails c then ([c], false)
      else
        let r := cutAt fails cs
        (c :: r.1, r.2)

/-- The loop of `copy_from` under a remote-failure oracle `fails`: a call `c`
with `fails c = true` is issued and raises, aborting the traversal (flag
`false`); the recursive call into a subdirectory is inlined as in `walk`. -/
def walkE (fails : Call → Bool) (lp rp : Path) : Forest → List Call × Bool
  | .nil => ([], true)
  | .dir name cs rest =>
      let c := Call.mkdir (rp ++ [name])
      if fails c then ([c], false)
      else
        let r1 := walkE fails (lp ++ [name]) (rp ++ [name]) cs
        if r1.2 then
          let r2 := walkE fails lp rp rest
          (c :: (r1.1 ++ r2.1), r2.2)
        else (c :: r1.1, false)
  | .file name rest =>
      let c := Call.upload (lp ++ [name]) rp name
      if fails c then ([c], false)
      else
        let r := walkE fails lp rp rest
        (c :: r.1, r.2)
  | .other _ rest => walkE fails lp rp rest

/-- `copy_from` under a remote-failure oracle: `make_directory(remote_path)`
is issued first and may raise; otherwise `os.listdir` may raise; otherwise
the loop runs under the oracle. -/
def copy_fromE (fails : Call → Bool) (lp : Path) (e : Entry) (rp : Path) :
    List Call × Bool :=
  let c := Call.mkdir rp
  if fails c then ([c], false)
  else
    match listdir e with
    | some cs =>
        let r := walkE fails lp rp cs
        (c :: r.1, r.2)
    | none => ([c], false)

/-- Whether the listing contains a regular file at relative directory path
`ds` (a chain of nested subdirectory names) with base name `fn`. -/
def fileAtF : Forest → List String → String → Bool
  | .nil, _, _ => false
  | .dir _ _ rest, [], fn => fileAtF rest [] fn
  | .dir name cs rest, d :: ds, fn =>
      (decide (name = d) && fileAtF cs ds fn) || fileAtF rest (d :: ds) fn
  | .file name rest, [], fn => decide (name = fn) || fileAtF rest [] fn
  | .file _ rest, d :: ds, fn => fileAtF rest (d :: ds) fn
  | .other _ rest, ds, fn => fileAtF rest ds fn

/-- The authenticated Agave session, holding the parameters passed to
`Agave(...)` in `AgaveWrapper.__init__`. -/
structure Session where
  api_server : String
  username : String
  password : String
  client_name : String
  api_key : String
  api_secret : String
  deriving DecidableEq, Repr

/-- The `AgaveWrapper` adapter state: `_rootpath`, `_system_id` and the
`_agave` session, all set in `__init__` and never assigned afterwards. -/
structure AgaveWrapper where
  rootpath : Path
  system_id : String
  agave : Session
  deriving DecidableEq, Repr

/-- The environment-variable names read by `AgaveWrapper.__init__`, in the
order Python evaluates the `Agave(...)` arguments. -/
def requiredEnvKeys : List String :=
  ["AGAVE_SERVER", "AGAVE_CLIENT", "AGAVE_API_KEY", "AGAVE_API_SECRET"]

/-- `AgaveWrapper.__init__`: stores `rootpath` and `system_id`, then builds
the session from the credentials and from four `os.environ[...]` lookups,
each of which raises a `KeyError` (modelled as `Except.error`) when the
variable is absent. -/
def AgaveWrapper.init (env : String → Option String)
    (rootpath : Path) (system_id username password : String) :
    Except String AgaveWrapper :=
  match env "AGAVE_SERVER" with
  | none => .error "KeyError: AGAVE_SERVER"
  | some server =>
    match env "AGAVE_CLIENT" with
    | none => .error "KeyError: AGAVE_CLIENT"
    | some client =>
      match env "AGAVE_API_KEY" with
      | none => .error "KeyError: AGAVE_API_KEY"
      | some key =>
        match env "AGAVE_API_SECRET" with
        | none => .error "KeyError: AGAVE_API_SECRET"
        | some secret =>
          .ok { rootpath := rootpath, system_id := system_id,
                agave := { api_server := "https://" ++ server,
                           username := username, password := password,
                           client_name := client, api_key := key,
                           api_secret := secret } }

/-- The entry path of the script: construct the adapter (which may raise on
a missing environment variable), then run `copy_from`.  Returns the issued
adapter calls, or the construction error, in which case no traversal runs
and no call is issued. -/
def runMain (env : String → Option String) (username password : String)
    (lp : Path) (e : Entry) (rp : Path) : Except String (List Call) :=
  match AgaveWrapper.init env ["sample", "biofab"] "data-sd2e-community" username password with
  | .error msg => .error msg
  | .ok _ => .ok (copy_from lp e rp).1

/-- A wire-level call made through the `agavepy` client: `files.manage` (for
`make_directory`) or `files.importData` (for uploads). -/
inductive WireCall where
  | manage (action : String) (path : Path) (systemId : String) (filePath : Path)
  | importData (systemId : String) (filePath : Path) (fileName : String)
  deriving DecidableEq, Repr

/-- `AgaveWrapper.make_directory(path)`: one `files.manage` call with body
action `mkdir` and body path `path`, against the wrapper's system id, with
`filePath` equal to the wrapper's root path.  State-passing form: the
returned wrapper is the receiver, which the method never mutates. -/
def make_directory (w : AgaveWrapper) (path : Path) : AgaveWrapper × WireCall :=
  (w, WireCall.manage "mkdir" path w.system_id w.rootpath)

/-- `AgaveWrapper.upload_fileobj(file_obj, dest_path, filename)`: one
`files.importData` call with `filePath` the join of the wrapper's root path
and `dest_path`, and `fileName` the given filename. -/
def upload_fileobj (w : AgaveWrapper) (dest_path : Path) (filename : String) :
    AgaveWrapper × WireCall :=
  (w, WireCall.importData w.system_id (w.rootpath ++ dest_path) filename)

/-- The full remote destination of an `upload_fileobj` call: the server
joins the `importData` file path with the `fileName`. -/
def uploadDest (w : AgaveWrapper) (dest_path : Path) (filename : String) : Path :=
  match (upload_fileobj w dest_path filename).2 with
  | WireCall.importData _ filePath fileName => filePath ++ [fileName]
  | WireCall.manage _ _ _ _ => []

/-- A local file-handle / remote-call event of `upload_file`. -/
inductive FileEvent where
  | opened (path : Path)
  | wire (c : WireCall)
  | closed (path : Path)
  deriving DecidableEq, Repr

/-- `AgaveWrapper.upload_file(file_path, dest_path, filename)`: opens the
local file for binary read (the `with open(file_path, 'rb')` statement),
delegates to `upload_fileobj` with the same `dest_path` and `filename`, and
closes the handle when the block exits, normally or by exception.
`uploadRaises` says whether the delegated `importData` call raises; the
returned flag is `true` exactly when the whole call raises. -/
def upload_file (w : AgaveWrapper) (uploadRaises : Bool)
    (file_path : Path) (dest_path : Path) (filename : String) :
    AgaveWrapper × (List FileEvent × Bool) :=
  let body := upload_fileobj w dest_path filename
  (body.1,
   (FileEvent.opened file_path :: FileEvent.wire body.2 :: [FileEvent.closed file_path],
    uploadRaises))

/-- The number of times `upload_file` opened the handle of `fp` minus the
number of times it closed it, over an event list. -/
def openBalance (fp : Path) : List FileEvent → Int
  | [] => 0
  | FileEvent.opened p :: rest => (if p = fp then 1 else 0) + openBalance fp rest
  | FileEvent.closed p :: rest => (if p = fp then -1 else 0) + openBalance fp rest
  | FileEvent.wire _ :: rest => openBalance fp rest

/-- An adapter method invocation, for stating that no sequence of adapter
calls mutates the adapter. -/
inductive OpReq where
  | mkdirOp (path : Path)
  | uploadFileOp (uploadRaises : Bool) (file_path : Path) (dest_path : Path) (filename : String)
  | uploadFileobjOp (dest_path : Path) (filename : String)
  deriving Repr

/-- Applies one adapter method in state-passing form. -/
def applyOp (w : AgaveWrapper) : OpReq → AgaveWrapper
  | .mkdirOp p => (make_directory w p).1
  | .uploadFileOp r fp dp fn => (upload_file w r fp dp fn).1
  | .uploadFileobjOp dp fn => (upload_fileobj w dp fn).1

/-- Applies a sequence of adapter methods in order. -/
def runOps (w : AgaveWrapper) : List OpReq → AgaveWrapper
  | [] => w
  | op :: rest => runOps (applyOp w op) rest

/-- The nesting height of a listing: the number of directory levels of its
deepest subdirectory chain. -/
def heightF : Forest → Nat
  | .nil => 0
  | .dir _ cs rest => max (heightF cs + 1) (heightF rest)
  | .file _ rest => heightF rest
  | .other _ rest => heightF rest

/-- `walk` with an explicit recursion-depth budget: descending into a
subdirectory (the only recursive call of `copy_from`) consumes one unit of
fuel; `none` means the budget was exhausted. -/
def walkFuel (fuel : Nat) (lp rp : Path) : Forest → Option (List Call)
  | .nil => some []
  | .dir name cs rest =>
      match fuel with
      | 0 => none
      | fuel' + 1 =>
        match walkFuel fuel' (lp ++ [name]) (rp ++ [name]) cs with
        | none => none
        | some r1 =>
          match walkFuel (fuel' + 1) lp rp rest with
          | none => none
          | some r2 => some (Call.mkdir (rp ++ [name]) :: (r1 ++ r2))
  | .file name rest =>
      match walkFuel fuel lp rp rest with
      | none => none
      | some r => some (Call.upload (lp ++ [name]) rp name :: r)
  | .other _ rest => walkFuel fuel lp rp rest

/-- `copy_from` with a recursion-depth budget. -/
def copy_fromFuel (fuel : Nat) (lp : Path) (e : Entry) (rp : Path) :
    Option (List Call × Bool) :=
  match listdir e with
  | some cs =>
      match fuel with
      | 0 => none
      | fuel' + 1 =>
        match walkFuel fuel' lp rp cs with
        | none => none
        | some r => some (Call.mkdir rp :: r, true)
  | none => some ([Call.mkdir rp], false)

/-- The nesting height of an entry: `0` for non-directories. -/
def height : Entry → Nat
  | .Dir cs => heightF cs + 1
  | _ => 0

example : walk [] ["proj"] (.file "a.txt" (.dir "sub" (.file "b.txt" .nil) .nil)) =
    [Call.upload ["a.txt"] ["proj"] "a.txt", Call.mkdir ["proj", "sub"],
     Call.upload ["sub", "b.txt"] ["proj", "sub"] "b.txt"] := by
  decide


theorem mkdirPaths_walk (lp rp : Path) (cs : Forest) :
    mkdirPaths (walk lp rp cs) = dirPaths rp cs := by
  induction cs generalizing lp rp <;>
    simp_all [walk, dirPaths, mkdirPaths]

theorem uploadTriples_walk (lp rp : Path) (cs : Forest) :
    uploadTriples (walk lp rp cs) = filePaths lp rp cs := by
  induction cs generalizing lp rp <;>
    simp_all [walk, filePaths, uploadTriples]

theorem dirPaths_shape (rp : Path) (cs : Forest) :
    ∀ p ∈ dirPaths rp cs, ∃ n t, n ∈ childNames cs ∧ p = rp ++ n :: t := by
  induction cs generalizing rp with
  | nil => simp [dirPaths]
  | dir name cs rest ih1 ih2 =>
    intro p hp
    simp only [dirPaths, List.mem_cons, List.mem_append] at hp
    rcases hp with h | h | h
    · exact ⟨name, [], by simp [childNames], by simp [h]⟩
    · obtain ⟨n, t, _, ht⟩ := ih1 _ p h
      exact ⟨name, n :: t, by simp [childNames], by simp [ht]⟩
    · obtain ⟨n, t, hn, ht⟩ := ih2 _ p h
      exact ⟨n, t, by simp [childNames]; exact Or.inr hn, ht⟩
  | file name rest ih =>
    intro p hp
    obtain ⟨n, t, hn, ht⟩ := ih _ p (by simpa [dirPaths] using hp)
    exact ⟨n, t, by simp [childNames]; exact Or.inr hn, ht⟩
  | other name rest ih =>
    intro p hp
    obtain ⟨n, t, hn, ht⟩ := ih _ p (by simpa [dirPaths] using hp)
    exact ⟨n, t, by simp [childNames]; exact Or.inr hn, ht⟩

theorem dirPaths_nodup (rp : Path) (cs : Forest)
    (hv : validF cs = true) : (dirPaths rp cs).Nodup := by
  induction cs generalizing rp with
  | nil => simp [dirPaths]
  | dir name cs rest ih1 ih2 =>
    simp only [validF, Bool.and_eq_true, decide_eq_true_eq] at hv
    obtain ⟨⟨hname, hcs⟩, hrest⟩ := hv
    simp only [dirPaths, List.nodup_cons, List.mem_append, List.nodup_append]
    refine ⟨?_, ih1 _ hcs, ih2 _ hrest, ?_⟩
    · rintro (h | h)
      · obtain ⟨n, t, _, ht⟩ := dirPaths_shape _ _ _ h
        have := congrArg List.length ht
        simp at this
      · obtain ⟨n, t, hn, ht⟩ := dirPaths_shape _ _ _ h
        have h2 : [name] = n :: t := List.append_cancel_left ht
        have : name = n := by simpa using congrArg (List.headD · "") h2
        exact hname (this ▸ hn)
    · intro p hp hq
      obtain ⟨n1, t1, _, h1⟩ := dirPaths_shape _ _ _ hp
      obtain ⟨n2, t2, hn2, h2⟩ := dirPaths_shape _ _ _ hq
      rw [h1] at h2
      have h3 : [name] ++ n1 :: t1 = n2 :: t2 := by
        rw [List.append_assoc] at h2
        exact List.append_cancel_left h2
      have : name = n2 := by simpa using congrArg (List.headD · "") h3
      exact hname (this ▸ hn2)
  | file name rest ih =>
    simp only [validF, Bool.and_eq_true, decide_eq_true_eq] at hv
    simpa [dirPaths] using ih _ hv.2
  | other name rest ih =>
    simp only [validF, Bool.and_eq_true, decide_eq_true_eq] at hv
    simpa [dirPaths] using ih _ hv.2

theorem filePaths_shape (lp rp : Path) (cs : Forest) :
    ∀ x ∈ filePaths lp rp cs, ∃ n t, n ∈ childNames cs ∧ x.1 = lp ++ n :: t := by
  induction cs generalizing lp rp with
  | nil => simp [filePaths]
  | dir name cs rest ih1 ih2 =>
    intro x hx
    simp only [filePaths, List.mem_append] at hx
    rcases hx with h | h
    · obtain ⟨n, t, _, ht⟩ := ih1 _ _ x h
      exact ⟨name, n :: t, by simp [childNames], by simp [ht]⟩
    · obtain ⟨n, t, hn, ht⟩ := ih2 _ _ x h
      exact ⟨n, t, by simp [childNames]; exact Or.inr hn, ht⟩
  | file name rest ih =>
    intro x hx
    simp only [filePaths, List.mem_cons] at hx
    rcases hx with h | h
    · exact ⟨name, [], by simp [childNames], by simp [h]⟩
    · obtain ⟨n, t, hn, ht⟩ := ih _ _ x h
      exact ⟨n, t, by simp [childNames]; exact Or.inr hn, ht⟩
  | other name rest ih =>
    intro x hx
    obtain ⟨n, t, hn, ht⟩ := ih _ _ x (by simpa [filePaths] using hx)
    exact ⟨n, t, by simp [childNames]; exact Or.inr hn, ht⟩

theorem filePaths_locals_nodup (lp rp : Path) (cs : Forest)
    (hv : validF cs = true) :
    ((filePaths lp rp cs).map (fun x => x.1)).Nodup := by
  induction cs generalizing lp rp with
  | nil => simp [filePaths]
  | dir name cs rest ih1 ih2 =>
    simp only [validF, Bool.and_eq_true, decide_eq_true_eq] at hv
    obtain ⟨⟨hname, hcs⟩, hrest⟩ := hv
    simp only [filePaths, List.map_append, List.nodup_append]
    refine ⟨ih1 _ _ hcs, ih2 _ _ hrest, ?_⟩
    intro p hp hq
    simp only [List.mem_map] at hp hq
    obtain ⟨x1, hx1, hpx1⟩ := hp
    obtain ⟨x2, hx2, hpx2⟩ := hq
    obtain ⟨n1, t1, _, h1⟩ := filePaths_shape _ _ _ x1 hx1
    obtain ⟨n2, t2, hn2, h2⟩ := filePaths_shape _ _ _ x2 hx2
    have heq : (lp ++ [name]) ++ n1 :: t1 = lp ++ n2 :: t2 := by
      rw [← h1, ← h2, hpx1, hpx2]
    rw [List.append_assoc] at heq
    have h3 : [name] ++ n1 :: t1 = n2 :: t2 := List.append_cancel_left heq
    have : name = n2 := by simpa using congrArg (List.headD · "") h3
    exact hname (this ▸ hn2)
  | file name rest ih =>
    simp only [validF, Bool.and_eq_true, decide_eq_true_eq] at hv
    obtain ⟨hname, hrest⟩ := hv
    simp only [filePaths, List.map_cons, List.nodup_cons]
    refine ⟨?_, ih _ _ hrest⟩
    intro hmem
    simp only [List.mem_map] at hmem
    obtain ⟨x, hx, hpx⟩ := hmem
    obtain ⟨n, t, hn, ht⟩ := filePaths_shape _ _ _ x hx
    rw [ht] at hpx
    have h3 : n :: t = [name] := List.append_cancel_left hpx
    have : n = name := by simpa using congrArg (List.headD · "") h3
    exact hname (this ▸ hn)
  | other name rest ih =>
    simp only [validF, Bool.and_eq_true, decide_eq_true_eq] at hv
    simpa [filePaths] using ih _ _ hv.2

theorem filePaths_nodup (lp rp : Path) (cs : Forest)
    (hv : validF cs = true) : (filePaths lp rp cs).Nodup :=
  (filePaths_locals_nodup lp rp cs hv).of_map _

theorem walk_pruneF (lp rp : Path) (cs : Forest) :
    walk lp rp (pruneF cs) = walk lp rp cs := by
  induction cs generalizing lp rp <;>
    simp_all [walk, pruneF]

/-- C1: for every finite local directory tree (a listable directory whose
sibling names are distinct at every level), the `make_directory` calls
issued by `copy_from` are exactly the directory paths of the tree, root
included, in pre-order (`dirPaths` enumerates each directory before its
descendants), and that path list has no duplicates, so each directory gets
exactly one call. -/
theorem copy_from_mkdir_calls (lp rp : Path) (e : Entry)
    (cs : Forest) (hd : listdir e = some cs)
    (hv : validF cs = true) :
    mkdirPaths (copy_from lp e rp).1 = rp :: dirPaths rp cs ∧
      (rp :: dirPaths rp cs).Nodup := by
  constructor
  · have h1 : mkdirPaths (Call.mkdir rp :: walk lp rp cs) =
        rp :: mkdirPaths (walk lp rp cs) := by simp [mkdirPaths]
    simp only [copy_from, hd]
    rw [h1, mkdirPaths_walk]
  · simp only [List.nodup_cons]
    refine ⟨?_, dirPaths_nodup rp cs hv⟩
    intro h
    obtain ⟨n, t, _, ht⟩ := dirPaths_shape rp cs _ h
    have := congrArg List.length ht
    simp at this

theorem copy_from_mkdir_calls_witness :
    mkdirPaths (copy_from []
        (Entry.Dir (.file "a.txt" (.dir "sub" (.file "b.txt" .nil) .nil)))
        ["proj"]).1 =
      ["proj"] :: dirPaths ["proj"]
        (.file "a.txt" (.dir "sub" (.file "b.txt" .nil) .nil)) ∧
    (["proj"] :: dirPaths ["proj"]
        (.file "a.txt" (.dir "sub" (.file "b.txt" .nil) .nil))).Nodup :=
  copy_from_mkdir_calls [] ["proj"] _ _ rfl (by decide)

/-- C2: for every finite local directory tree (as in C1), the `upload_file`
calls issued by `copy_from` are exactly the regular files of the tree, each
with its local path, a destination path equal to its parent directory's
remote path (not a child path), and its local base name as filename; that
list has no duplicates, so each file is uploaded exactly once. -/
theorem copy_from_upload_calls (lp rp : Path) (e : Entry)
    (cs : Forest) (hd : listdir e = some cs)
    (hv : validF cs = true) :
    uploadTriples (copy_from lp e rp).1 = filePaths lp rp cs ∧
      (filePaths lp rp cs).Nodup := by
  constructor
  · have h1 : uploadTriples (Call.mkdir rp :: walk lp rp cs) =
        uploadTriples (walk lp rp cs) := by simp [uploadTriples]
    simp only [copy_from, hd]
    rw [h1, uploadTriples_walk]
  · exact filePaths_nodup lp rp cs hv

theorem copy_from_upload_calls_witness :
    uploadTriples (copy_from []
        (Entry.Dir (.file "a.txt" (.dir "sub" (.file "b.txt" .nil) .nil)))
        ["proj"]).1 =
      filePaths [] ["proj"]
        (.file "a.txt" (.dir "sub" (.file "b.txt" .nil) .nil)) ∧
    (filePaths [] ["proj"]
        (.file "a.txt" (.dir "sub" (.file "b.txt" .nil) .nil))).Nodup :=
  copy_from_upload_calls [] ["proj"] _ _ rfl (by decide)

/-- C3: an entry that is neither a regular file nor a directory is silently
skipped: the loop on a listing headed by an `other` child behaves as on the
remaining siblings alone, and, in general, erasing every `other` child from
a tree (`pruneF`) leaves the issued call sequence unchanged, so such
entries produce neither a create-directory nor an upload call and are never
recursed into. -/
theorem copy_from_skips_others (lp rp : Path) (name : String)
    (rest cs : Forest) :
    walk lp rp (.other name rest) = walk lp rp rest ∧
      walk lp rp (pruneF cs) = walk lp rp cs :=
  ⟨by simp [walk], walk_pruneF lp rp cs⟩

/-- C9: `copy_from` issues `make_directory(remote_path)` before touching the
local filesystem, so on a local path that is not a listable directory
(`os.listdir` raises) the run consists of exactly one remote
create-directory call followed by the propagating filesystem error. -/
theorem copy_from_mkdir_precedes_listdir (lp rp : Path) (e : Entry)
    (hd : listdir e = none) :
    copy_from lp e rp = ([Call.mkdir rp], false) := by
  simp [copy_from, hd]

theorem copy_from_mkdir_precedes_listdir_witness :
    copy_from ["f.txt"] Entry.File ["r"] = ([Call.mkdir ["r"]], false) :=
  copy_from_mkdir_precedes_listdir ["f.txt"] ["r"] Entry.File rfl

theorem cutAt_ok_iff (fails : Call → Bool) (l : List Call) :
    (cutAt fails l).2 = true ↔ ∀ c ∈ l, fails c = false := by
  induction l with
  | nil => simp [cutAt]
  | cons c cs ih =>
    by_cases h : fails c = true
    · simp [cutAt, h]
    · simp only [Bool.not_eq_true] at h
      simp [cutAt, h, ih]

theorem cutAt_append (fails : Call → Bool) (l1 l2 : List Call) :
    cutAt fails (l1 ++ l2) =
      ((cutAt fails l1).1 ++ (if (cutAt fails l1).2 then (cutAt fails l2).1 else []),
       (cutAt fails l1).2 && (cutAt fails l2).2) := by
  induction l1 with
  | nil => simp [cutAt]
  | cons c cs ih =>
    by_cases h : fails c = true
    · simp [cutAt, h]
    · simp only [Bool.not_eq_true] at h
      simp [cutAt, h, ih]

theorem cutAt_issued (fails : Call → Bool) (l : List Call) :
    ∃ t, l = (cutAt fails l).1 ++ t := by
  induction l with
  | nil => exact ⟨[], by simp [cutAt]⟩
  | cons c cs ih =>
    by_cases h : fails c = true
    · exact ⟨cs, by simp [cutAt, h]⟩
    · simp only [Bool.not_eq_true] at h
      obtain ⟨t, ht⟩ := ih
      exact ⟨t, by simp only [cutAt, h]; simpa using ht⟩

theorem walkE_eq_cutAt (fails : Call → Bool) (lp rp : Path) (cs : Forest) :
    walkE fails lp rp cs = cutAt fails (walk lp rp cs) := by
  induction cs generalizing lp rp with
  | nil => simp [walk, walkE, cutAt]
  | dir name cs rest ih1 ih2 =>
    by_cases h : fails (Call.mkdir (rp ++ [name])) = true
    · simp [walk, walkE, cutAt, h]
    · simp only [Bool.not_eq_true] at h
      simp only [walk, walkE, cutAt, h, cutAt_append, ih1, ih2]
      by_cases h2 : (cutAt fails (walk (lp ++ [name]) (rp ++ [name]) cs)).2 = true
      · simp [h2]
      · simp only [Bool.not_eq_true] at h2
        simp [h2]
  | file name rest ih =>
    by_cases h : fails (Call.upload (lp ++ [name]) rp name) = true
    · simp [walk, walkE, cutAt, h]
    · simp only [Bool.not_eq_true] at h
      simp [walk, walkE, cutAt, h, ih]
  | other name rest ih =>
    simp [walk, walkE, ih]

/-- C4: under any remote-failure behaviour (`fails` says which calls raise),
the calls issued by `copy_from` on a listable directory are the no-failure
trace cut at its first failing call: the failing call is the last one issued,
nothing is issued after it, the issued calls are an unmodified initial
segment of the no-failure trace (so nothing already issued is undone and no
compensating call is emitted), and the run's success flag is `false` (the
exception propagates) exactly when some call of the trace fails. -/
theorem copy_fromE_abort (fails : Call → Bool) (lp rp : Path) (e : Entry)
    (cs : Forest) (hd : listdir e = some cs) :
    copy_fromE fails lp e rp = cutAt fails ((copy_from lp e rp).1) ∧
      (∃ t, (copy_from lp e rp).1 = (copy_fromE fails lp e rp).1 ++ t) ∧
      ((copy_fromE fails lp e rp).2 = false ↔
        ∃ c ∈ (copy_from lp e rp).1, fails c = true) := by
  have hmain : copy_fromE fails lp e rp = cutAt fails ((copy_from lp e rp).1) := by
    by_cases h : fails (Call.mkdir rp) = true
    · simp [copy_from, copy_fromE, cutAt, hd, h]
    · simp only [Bool.not_eq_true] at h
      simp [copy_from, copy_fromE, cutAt, hd, h, walkE_eq_cutAt]
  refine ⟨hmain, ?_, ?_⟩
  · rw [hmain]
    exact cutAt_issued fails ((copy_from lp e rp).1)
  · rw [hmain]
    rw [show ((cutAt fails ((copy_from lp e rp).1)).2 = false ↔
        ¬ (cutAt fails ((copy_from lp e rp).1)).2 = true) from by simp]
    rw [cutAt_ok_iff]
    push_neg
    simp only [Bool.not_eq_false]

theorem copy_fromE_abort_witness :
    (copy_fromE (fun c => decide (c = Call.mkdir ["proj", "sub"])) []
        (Entry.Dir (.file "a.txt" (.dir "sub" (.file "b.txt" .nil) .nil)))
        ["proj"] =
      cutAt (fun c => decide (c = Call.mkdir ["proj", "sub"]))
        ((copy_from []
          (Entry.Dir (.file "a.txt" (.dir "sub" (.file "b.txt" .nil) .nil)))
          ["proj"]).1)) ∧
      (∃ t, (copy_from []
          (Entry.Dir (.file "a.txt" (.dir "sub" (.file "b.txt" .nil) .nil)))
          ["proj"]).1 =
        (copy_fromE (fun c => decide (c = Call.mkdir ["proj", "sub"])) []
          (Entry.Dir (.file "a.txt" (.dir "sub" (.file "b.txt" .nil) .nil)))
          ["proj"]).1 ++ t) ∧
      ((copy_fromE (fun c => decide (c = Call.mkdir ["proj", "sub"])) []
          (Entry.Dir (.file "a.txt" (.dir "sub" (.file "b.txt" .nil) .nil)))
          ["proj"]).2 = false ↔
        ∃ c ∈ (copy_from []
          (Entry.Dir (.file "a.txt" (.dir "sub" (.file "b.txt" .nil) .nil)))
          ["proj"]).1, (fun c => decide (c = Call.mkdir ["proj", "sub"])) c = true) :=
  copy_fromE_abort (fun c => decide (c = Call.mkdir ["proj", "sub"])) [] ["proj"] _ _ rfl

theorem fileAtF_filePaths (cs : Forest) :
    ∀ ds fn lp rp, fileAtF cs ds fn = true →
      (lp ++ ds ++ [fn], rp ++ ds, fn) ∈ filePaths lp rp cs := by
  induction cs with
  | nil =>
    intro ds fn lp rp h
    simp [fileAtF] at h
  | dir name cs rest ih1 ih2 =>
    intro ds fn lp rp h
    cases ds with
    | nil =>
      simp only [fileAtF] at h
      simp only [filePaths, List.mem_append]
      exact Or.inr (by simpa using ih2 [] fn lp rp h)
    | cons d ds =>
      simp only [fileAtF, Bool.or_eq_true, Bool.and_eq_true, decide_eq_true_eq] at h
      simp only [filePaths, List.mem_append]
      rcases h with ⟨hnd, hcs⟩ | hrest
      · subst hnd
        left
        have hm := ih1 ds fn (lp ++ [name]) (rp ++ [name]) hcs
        have e1 : lp ++ (name :: ds) ++ [fn] = (lp ++ [name]) ++ ds ++ [fn] := by simp
        have e2 : rp ++ (name :: ds) = (rp ++ [name]) ++ ds := by simp
        rw [e1, e2]
        exact hm
      · exact Or.inr (ih2 (d :: ds) fn lp rp hrest)
  | file name rest ih =>
    intro ds fn lp rp h
    cases ds with
    | nil =>
      simp only [fileAtF, Bool.or_eq_true, decide_eq_true_eq] at h
      simp only [filePaths, List.mem_cons]
      rcases h with h | h
      · subst h
        exact Or.inl (by simp)
      · exact Or.inr (by simpa using ih [] fn lp rp h)
    | cons d ds =>
      simp only [fileAtF] at h
      simp only [filePaths, List.mem_cons]
      exact Or.inr (ih (d :: ds) fn lp rp h)
  | other name rest ih =>
    intro ds fn lp rp h
    simp only [fileAtF] at h
    simpa [filePaths] using ih ds fn lp rp h

theorem upload_mem_of_mem_uploadTriples (l : List Call) (fp dp : Path) (fn : String)
    (h : (fp, dp, fn) ∈ uploadTriples l) : Call.upload fp dp fn ∈ l := by
  simp only [uploadTriples, List.mem_filterMap] at h
  obtain ⟨c, hc, heq⟩ := h
  cases c with
  | mkdir p => simp at heq
  | upload fp2 dp2 fn2 =>
    simp only [Option.some.injEq, Prod.mk.injEq] at heq
    obtain ⟨h1, h2, h3⟩ := heq
    rw [← h1, ← h2, ← h3]
    exact hc

/-- C5: for a regular file at relative directory chain `ds` with base name
`fn` inside the copied tree, `copy_from` with remote root `rp` issues an
upload whose local path is `lp ++ ds ++ [fn]`, whose destination is the
mirrored directory `rp ++ ds`, and whose filename is `fn`; and the adapter's
`upload_fileobj` joins its configured root path with that destination and
the server appends the filename, so the final remote destination is
`rootpath ++ rp ++ ds ++ [fn]` — the root followed by the exact mirrored
relative path, at any nesting depth. -/
theorem upload_dest_mirror (w : AgaveWrapper) (lp rp : Path) (e : Entry)
    (cs : Forest) (ds : List String) (fn : String)
    (hd : listdir e = some cs) (hf : fileAtF cs ds fn = true) :
    Call.upload (lp ++ ds ++ [fn]) (rp ++ ds) fn ∈ (copy_from lp e rp).1 ∧
      uploadDest w (rp ++ ds) fn = w.rootpath ++ rp ++ ds ++ [fn] := by
  constructor
  · have hmem := fileAtF_filePaths cs ds fn lp rp hf
    rw [← uploadTriples_walk] at hmem
    have := upload_mem_of_mem_uploadTriples _ _ _ _ hmem
    simp only [copy_from, hd]
    exact List.mem_cons.2 (Or.inr this)
  · simp [uploadDest, upload_fileobj]

theorem upload_dest_mirror_witness :
    Call.upload (["base"] ++ ["A", "B"] ++ ["c.txt"]) (["proj"] ++ ["A", "B"]) "c.txt" ∈
        (copy_from ["base"]
          (Entry.Dir (.dir "A" (.dir "B" (.file "c.txt" .nil) .nil) .nil))
          ["proj"]).1 ∧
      uploadDest { rootpath := ["R"], system_id := "s",
                   agave := { api_server := "a", username := "u", password := "p",
                              client_name := "c", api_key := "k", api_secret := "x" } }
          (["proj"] ++ ["A", "B"]) "c.txt" =
        ["R"] ++ ["proj"] ++ ["A", "B"] ++ ["c.txt"] :=
  upload_dest_mirror
    { rootpath := ["R"], system_id := "s",
      agave := { api_server := "a", username := "u", password := "p",
                 client_name := "c", api_key := "k", api_secret := "x" } }
    ["base"] ["proj"] _ _ ["A", "B"] "c.txt" rfl (by decide)

/-- C6: when any of the four required environment variables is absent,
`AgaveWrapper.__init__` raises a key-lookup error, so the whole run fails
at adapter construction, before any traversal, and issues zero remote
calls (`runMain` returns the construction error and no call list). -/
theorem init_missing_env (env : String → Option String)
    (username password : String) (lp : Path) (e : Entry) (rp : Path)
    (h : ∃ k ∈ requiredEnvKeys, env k = none) :
    ∃ msg, AgaveWrapper.init env ["sample", "biofab"] "data-sd2e-community"
        username password = .error msg ∧
      runMain env username password lp e rp = .error msg := by
  obtain ⟨k, hk, hnone⟩ := h
  cases h1 : env "AGAVE_SERVER" with
  | none =>
    exact ⟨"KeyError: AGAVE_SERVER", by simp [AgaveWrapper.init, h1],
      by simp [runMain, AgaveWrapper.init, h1]⟩
  | some server =>
    cases h2 : env "AGAVE_CLIENT" with
    | none =>
      exact ⟨"KeyError: AGAVE_CLIENT", by simp [AgaveWrapper.init, h1, h2],
        by simp [runMain, AgaveWrapper.init, h1, h2]⟩
    | some client =>
      cases h3 : env "AGAVE_API_KEY" with
      | none =>
        exact ⟨"KeyError: AGAVE_API_KEY", by simp [AgaveWrapper.init, h1, h2, h3],
          by simp [runMain, AgaveWrapper.init, h1, h2, h3]⟩
      | some key =>
        cases h4 : env "AGAVE_API_SECRET" with
        | none =>
          exact ⟨"KeyError: AGAVE_API_SECRET",
            by simp [AgaveWrapper.init, h1, h2, h3, h4],
            by simp [runMain, AgaveWrapper.init, h1, h2, h3, h4]⟩
        | some secret =>
          exfalso
          simp only [requiredEnvKeys, List.mem_cons, List.not_mem_nil, or_false] at hk
          rcases hk with rfl | rfl | rfl | rfl
          · rw [h1] at hnone; exact Option.noConfusion hnone
          · rw [h2] at hnone; exact Option.noConfusion hnone
          · rw [h3] at hnone; exact Option.noConfusion hnone
          · rw [h4] at hnone; exact Option.noConfusion hnone

theorem init_missing_env_witness :
    ∃ msg, AgaveWrapper.init (fun _ => none) ["sample", "biofab"]
        "data-sd2e-community" "u" "p" = .error msg ∧
      runMain (fun _ => none) "u" "p" [] Entry.Other [] = .error msg :=
  init_missing_env (fun _ => none) "u" "p" [] Entry.Other []
    ⟨"AGAVE_SERVER", by simp [requiredEnvKeys], rfl⟩

/-- C7: `upload_file` opens the local file handle first, delegates to
`upload_fileobj` with the same destination path and filename, and closes
the handle last, whether or not the underlying upload call raises: the
event trace starts with `opened`, ends with `closed`, contains the
delegated wire call, and its open/close balance for the file is zero; the
call raises exactly when the delegated upload raises. -/
theorem upload_file_scoped_handle (w : AgaveWrapper) (uploadRaises : Bool)
    (fp dp : Path) (fn : String) :
    (upload_file w uploadRaises fp dp fn).2.1.head? = some (FileEvent.opened fp) ∧
      (upload_file w uploadRaises fp dp fn).2.1.getLast? = some (FileEvent.closed fp) ∧
      FileEvent.wire (upload_fileobj w dp fn).2 ∈ (upload_file w uploadRaises fp dp fn).2.1 ∧
      openBalance fp (upload_file w uploadRaises fp dp fn).2.1 = 0 ∧
      (upload_file w uploadRaises fp dp fn).2.2 = uploadRaises := by
  refine ⟨rfl, rfl, ?_, ?_, rfl⟩
  · simp [upload_file]
  · simp [upload_file, openBalance]

theorem applyOp_fixes (w : AgaveWrapper) (op : OpReq) : applyOp w op = w := by
  cases op <;> rfl

/-- C8: the adapter's fields (root path, storage-system id, session) are
never mutated after construction: each adapter method returns the receiver
unchanged, and any sequence of `make_directory`, `upload_file` and
`upload_fileobj` invocations leaves the adapter exactly as constructed. -/
theorem adapter_never_mutated (w : AgaveWrapper) (ops : List OpReq) :
    runOps w ops = w ∧
      (∀ p, (make_directory w p).1 = w) ∧
      (∀ r fp dp fn, (upload_file w r fp dp fn).1 = w) ∧
      (∀ dp fn, (upload_fileobj w dp fn).1 = w) := by
  refine ⟨?_, fun p => rfl, fun r fp dp fn => rfl, fun dp fn => rfl⟩
  induction ops with
  | nil => rfl
  | cons op rest ih =>
    rw [runOps, applyOp_fixes]
    exact ih

theorem walkFuel_complete (cs : Forest) :
    ∀ fuel lp rp, heightF cs ≤ fuel → walkFuel fuel lp rp cs = some (walk lp rp cs) := by
  induction cs with
  | nil =>
    intro fuel lp rp h
    simp [walkFuel, walk]
  | dir name cs rest ih1 ih2 =>
    intro fuel lp rp h
    simp only [heightF, Nat.max_le] at h
    cases fuel with
    | zero => omega
    | succ f =>
      have hcs : heightF cs ≤ f := by omega
      have hrest : heightF rest ≤ f + 1 := by omega
      simp [walkFuel, walk, ih1 f (lp ++ [name]) (rp ++ [name]) hcs,
        ih2 (f + 1) lp rp hrest]
  | file name rest ih =>
    intro fuel lp rp h
    simp only [heightF] at h
    simp [walkFuel, walk, ih fuel lp rp h]
  | other name rest ih =>
    intro fuel lp rp h
    simp only [heightF] at h
    simp [walkFuel, walk, ih fuel lp rp h]

/-- C10: `copy_from` terminates on every finite tree because its recursion
descends only into strict subdirectories: with any recursion-depth budget
at least the tree's nesting height, the fuel-bounded traversal never runs
out of fuel and computes exactly the unbounded traversal. -/
theorem copy_from_terminates (lp rp : Path) (e : Entry) (fuel : Nat)
    (h : height e ≤ fuel) :
    copy_fromFuel fuel lp e rp = some (copy_from lp e rp) := by
  cases e with
  | Dir cs =>
    simp only [height] at h
    cases fuel with
    | zero => omega
    | succ f =>
      have hcs : heightF cs ≤ f := by omega
      simp [copy_fromFuel, copy_from, listdir, walkFuel_complete cs f lp rp hcs]
  | File => simp [copy_fromFuel, copy_from, listdir]
  | Other => simp [copy_fromFuel, copy_from, listdir]

theorem copy_from_terminates_witness :
    copy_fromFuel 2 []
        (Entry.Dir (.file "a.txt" (.dir "sub" (.file "b.txt" .nil) .nil)))
        ["proj"] =
      some (copy_from []
        (Entry.Dir (.file "a.txt" (.dir "sub" (.file "b.txt" .nil) .nil)))
        ["proj"]) :=
  copy_from_terminates [] ["proj"] _ 2 (by decide)
end CopyAgave
